import Mathlib

/-!
Verification development for the twimine Twitter-bookmark scraper.

Strings from the JavaScript source are modelled as `List Char`; JS `null` /
`undefined` values are modelled with `Option`.  Each definition is a shallow
embedding of the correspondingly named JavaScript function; browser effects
(navigation, DOM queries, clicks) are abstracted into explicit input data
(lists of link events, selector oracles, per-scroll visible-link streams),
while all control flow and string logic is translated directly from the code.
-/

set_option maxHeartbeats 1000000

/-- Character class `[a-zA-Z0-9_-]` of the GitHub URL regex in
`test-github-extraction.js`. -/
def isNameChar (c : Char) : Bool :=
  c.isAlpha || c.isDigit || c = '_' || c = '-'

/-- Consume the literal `p` from the front of `l`; `some` of the remainder on
success.  Used to embed literal fragments of the regex and `startsWith`. -/
def dropLit : List Char → List Char → Option (List Char)
  | [], l => some l
  | _ :: _, [] => none
  | p :: ps, c :: cs => if c = p then dropLit ps cs else none

/-- JS `String.prototype.startsWith`. -/
def startsLit (p l : List Char) : Bool :=
  (dropLit p l).isSome

/-- JS `String.prototype.includes`: `pat` occurs contiguously in the string. -/
def containsSeg (pat : List Char) : List Char → Bool
  | [] => pat.isEmpty
  | c :: t => startsLit pat (c :: t) || containsSeg pat t

/-- JS `String.prototype.endsWith`. -/
def endsLit (p l : List Char) : Bool :=
  startsLit p.reverse l.reverse

def httpL : List Char := "http".data

def sL : List Char := "s".data

def colonSlashL : List Char := "://".data

def wwwL : List Char := "www.".data

def ghSlashL : List Char := "github.com/".data

def gcomL : List Char := "github.com".data

def loginL : List Char := "github.com/login".data

def signupL : List Char := "github.com/signup".data

def accountL : List Char := "github.com/account".data

/-- Third stage of the anchored regex match: literal `github.com/`, then a
greedy nonempty `[a-zA-Z0-9_-]+` owner, `/`, and a greedy nonempty repo run.
Greedy `+` with a following `/` is deterministic because `/` is not in the
class, so `takeWhile` is a faithful embedding of the backtracking regex. -/
def githubMatchHost (pre l : List Char) : Option (List Char × List Char) :=
  match dropLit ghSlashL l with
  | none => none
  | some l5 =>
    if (l5.takeWhile isNameChar).isEmpty then none
    else
      match l5.dropWhile isNameChar with
      | '/' :: l7 =>
        if (l7.takeWhile isNameChar).isEmpty then none
        else
          some (pre ++ ghSlashL ++ l5.takeWhile isNameChar ++
                  '/' :: l7.takeWhile isNameChar,
                l7.dropWhile isNameChar)
      | _ => none

/-- Second stage: literal `://` then the optional `(www\.)?` group.  Taking the
`www.` branch exactly when the literal is present is faithful: if `www.` is
present but the branch failed, the skipped branch would need `github.com/` to
start with `w`, which it does not, and vice versa. -/
def githubMatchScheme (pre l : List Char) : Option (List Char × List Char) :=
  match dropLit colonSlashL l with
  | none => none
  | some l3 =>
    match dropLit wwwL l3 with
    | some l4 => githubMatchHost (pre ++ colonSlashL ++ wwwL) l4
    | none => githubMatchHost (pre ++ colonSlashL) l3

/-- Anchored match of `/https?:\/\/(www\.)?github\.com\/[a-zA-Z0-9_-]+\/[a-zA-Z0-9_-]+/`
at the start of `l`, returning the matched text and the rest.  The optional
`s` is taken exactly when present, which agrees with the backtracking regex
because `://` cannot start with `s`. -/
def githubMatch (l : List Char) : Option (List Char × List Char) :=
  match dropLit httpL l with
  | none => none
  | some l1 =>
    match dropLit sL l1 with
    | some l2 => githubMatchScheme (httpL ++ sL) l2
    | none => githubMatchScheme httpL l1

/-- Global (`g`-flag) matching of the GitHub URL regex: scan left to right,
emitting each leftmost match and resuming after it, as JS `String.match` with
a global regex does.  `fuel` is an upper bound on the scanned length. -/
def scanGithub : Nat → List Char → List (List Char)
  | 0, _ => []
  | _ + 1, [] => []
  | fuel + 1, c :: t =>
    match githubMatch (c :: t) with
    | some (m, r) => m :: scanGithub fuel r
    | none => scanGithub fuel t

/-- `extractGitHubLinks` from `test-github-extraction.js`: `null`/`undefined`
(`none`) and the empty string return `[]`; otherwise all global regex matches
are collected and matches containing `github.com/login`, `github.com/signup`
or `github.com/account` are filtered out. -/
def extractGitHubLinks (text : Option (List Char)) : List (List Char) :=
  match text with
  | none => []
  | some [] => []
  | some l =>
    (scanGithub l.length l).filter fun u =>
      !containsSeg loginL u && !containsSeg signupL u && !containsSeg accountL u

/-- Specification-side description of a full match of the GitHub URL pattern:
scheme `http` with optional `s`, `://`, optional `www.`, `github.com/`, then
nonempty owner and repo segments over `[a-zA-Z0-9_-]`. -/
def nameSeg (o : List Char) : Prop :=
  o ≠ [] ∧ ∀ c ∈ o, isNameChar c = true

/-- Specification-side predicate: `u` is exactly a string matching the pattern
`https?://(www.)?github.com/<owner>/<repo>`. -/
def fullMatch (u : List Char) : Prop :=
  ∃ (s w : Bool) (o r : List Char), nameSeg o ∧ nameSeg r ∧
    u = httpL ++ (cond s sL []) ++ colonSlashL ++ (cond w wwwL []) ++
        ghSlashL ++ o ++ '/' :: r

/-- `u` occurs as a contiguous segment (substring) of `t`. -/
def isSegOf (u t : List Char) : Prop :=
  ∃ p s, p ++ u ++ s = t

def hashL : List Char := "#".data

def slashOnlyL : List Char := "/".data

def searchQL : List Char := "/search?".data

def listsL : List Char := "/i/lists/".data

def topicsL : List Char := "/i/topics/".data

def analyticsL : List Char := "/analytics".data

def statusSegL : List Char := "/status/".data

/-- One candidate link encountered in a tweet element of the opened post's
page (`scrapeBookmarks`, module `bookmarks`).  `href` is the result of
`link.getAttribute('href')` (`none` when the attribute read fails or the
attribute is absent); `finalUrl` is the URL of the redirect tab after
`redirectPage.goto(href)` followed by `redirectPage.url()` (`none` when the
navigation throws). -/
structure LinkEv where
  href : Option (List Char)
  finalUrl : Option (List Char)
deriving DecidableEq

/-- The skip condition of the reply-link loop in `scrapeBookmarks`:
`!href || href.startsWith('#') || href === '/' || href.includes('/search?') ||
href.includes('/i/lists/') || href.includes('/i/topics/') ||
href.endsWith('/analytics')` (the `!href` null/empty part is handled in
`followedB`). -/
def isSkippedHref (h : List Char) : Bool :=
  h.isEmpty || startsLit hashL h || decide (h = slashOnlyL) ||
  containsSeg searchQL h || containsSeg listsL h || containsSeg topicsL h ||
  endsLit analyticsL h

/-- Whether `scrapeBookmarks` follows this candidate link in the redirect
tab (reaches the `redirectPage.goto(href)` call). -/
def followedB (e : LinkEv) : Bool :=
  match e.href with
  | none => false
  | some h => !isSkippedHref h

/-- The GitHub test applied to a final URL in `scrapeBookmarks`:
`finalUrl.includes('github.com') && !finalUrl.includes('github.com/login') &&
!finalUrl.includes('github.com/signup')`. -/
def isGithubFinal (f : List Char) : Bool :=
  containsSeg gcomL f && !containsSeg loginL f && !containsSeg signupL f

/-- Insertion into a JS `Set` viewed as an insertion-ordered duplicate-free
list: adding an existing element is a no-op, a new element goes to the end. -/
def setAdd {α : Type} [DecidableEq α] (s : List α) (a : α) : List α :=
  if a ∈ s then s else s ++ [a]

/-- Body of the per-link loop of `scrapeBookmarks` acting on the state
`(bookmark.github_url, finalUrlsSet)`: skipped links and failed navigations
leave the state unchanged; a resolved final URL is added to the set and
overwrites `github_url` when it passes the GitHub test. -/
def procLink (st : Option (List Char) × List (List Char)) (e : LinkEv) :
    Option (List Char) × List (List Char) :=
  if followedB e then
    match e.finalUrl with
    | none => st
    | some f => (if isGithubFinal f then some f else st.1, setAdd st.2 f)
  else st

/-- The whole link-processing pass over one opened bookmark: the candidate
links of all tweet elements on the page, in order, folded through `procLink`
starting from `github_url = null` and an empty `finalUrlsSet`.  The first
component is the bookmark's final `github_url`, the second its `all_links`
(`Array.from(finalUrlsSet)`). -/
def processLinks (evs : List LinkEv) : Option (List Char) × List (List Char) :=
  evs.foldl procLink (none, [])

/-- The qualifying final URL contributed by one link event: present exactly
when the link is followed, its navigation succeeds, and the final URL passes
the GitHub test. -/
def qualFinal (e : LinkEv) : Option (List Char) :=
  if followedB e then
    match e.finalUrl with
    | some f => if isGithubFinal f then some f else none
    | none => none
  else none

/-- All qualifying final URLs of a link-event sequence, in processing order. -/
def qualFinals (evs : List LinkEv) : List (List Char) :=
  evs.filterMap qualFinal

/-- All final URLs captured from successfully followed links, in order. -/
def resolvedFinals (evs : List LinkEv) : List (List Char) :=
  evs.filterMap fun e => if followedB e then e.finalUrl else none

/-- The candidate links scanned for one opened bookmark: the links of every
tweet element returned by
`page.$$('article[data-testid="tweet"], div[data-testid="cellInnerDiv"]')`,
in page order.  The opened (main) post is itself one of these elements. -/
def harvestPage (tweets : List (List LinkEv)) : List LinkEv :=
  tweets.flatten

def lastD {α : Type} : List α → Option α → Option α
  | [], d => d
  | a :: l, _ => lastD l (some a)

/-- A bookmark object as produced by `scrapeBookmarks`. -/
structure RawBookmark where
  tweet_url : List Char
  username : Option (List Char)
  tweet_text : Option (List Char)
  github_url : Option (List Char)
  all_links : List (List Char)
  scraped_at : List Char
deriving DecidableEq

/-- A formatted output entry as written by `processOutput` (module `output`):
same fields in the fixed output order, without `tweet_text`. -/
structure Entry where
  username : Option (List Char)
  tweet_url : List Char
  github_url : Option (List Char)
  all_links : List (List Char)
  scraped_at : List Char
deriving DecidableEq

/-- The filter at the top of `processOutput`: a bookmark is dropped when
`!bookmark.github_url && (!bookmark.all_links || bookmark.all_links.length
=== 0)`. -/
def keepBookmark (b : RawBookmark) : Bool :=
  !(b.github_url.isNone && b.all_links.isEmpty)

/-- `[...new Set(arr)]`: insertion-ordered deduplication. -/
def dedupKeepFirst (l : List (List Char)) : List (List Char) :=
  l.foldl setAdd []

/-- The per-bookmark formatting step of `processOutput`: fixed field order and
`all_links` deduplicated via `[...new Set(bookmark.all_links || [])]`. -/
def formatBookmark (b : RawBookmark) : Entry :=
  { username := b.username
    tweet_url := b.tweet_url
    github_url := b.github_url
    all_links := dedupKeepFirst b.all_links
    scraped_at := b.scraped_at }

/-- `finalBookmarks`/`formattedBookmarks` of `processOutput`: keep bookmarks
with a GitHub URL or at least one captured link, then format each. -/
def formatBookmarks (bs : List RawBookmark) : List Entry :=
  (bs.filter keepBookmark).map formatBookmark

/-- State of the output file as seen by `processOutput`:  missing, present
but not JSON (`JSON.parse` throws, the file is backed up and treated as the
empty array), a JSON array, or valid JSON that is not an array (backed up and
overwritten). -/
inductive FileContent
  | missing
  | invalidJson
  | jsonArray (entries : List Entry)
  | jsonNonArray
deriving DecidableEq

/-- `processOutput` from the `output` module, reduced to the value written to
the output file.  In append mode with an existing JSON array, new bookmarks
whose `tweet_url` already occurs in the file are dropped and the rest are
appended; in every other configuration the freshly formatted bookmarks are
written as-is. -/
def processOutput (bs : List RawBookmark) (append : Bool) (file : FileContent) :
    List Entry :=
  let fmtd := formatBookmarks bs
  if append then
    match file with
    | .jsonArray existing =>
      existing ++ fmtd.filter fun b =>
        !(existing.any fun e => decide (e.tweet_url = b.tweet_url))
    | .missing => fmtd
    | .invalidJson => fmtd
    | .jsonNonArray => fmtd
  else fmtd

/-- The filter of the optimised visible-tweet-link collector in the current
`scrapeBookmarks` (module `bookmarks`) and of the legacy near-duplicate:
`href && href.includes('/status/') && !href.includes('/analytics')`.  The
`instanceof HTMLAnchorElement` guard of the optimised version always holds
for elements returned by `querySelectorAll('a[href*="/status/"]')`. -/
def keepTweetHref (h : List Char) : Bool :=
  !h.isEmpty && containsSeg statusSegL h && !containsSeg analyticsL h

/-- Optimised collector (current `scrapeBookmarks`): accumulate qualifying
hrefs into a JS `Set` and return `Array.from(linkSet)`. -/
def collectVisibleLinksSet (hrefs : List (List Char)) : List (List Char) :=
  hrefs.foldl (fun s h => if keepTweetHref h then setAdd s h else s) []

/-- Legacy collector (older `scrapeBookmarks` revision): accumulate into an
array guarded by `!links.includes(link.href)`. -/
def collectVisibleLinksLegacy (hrefs : List (List Char)) : List (List Char) :=
  hrefs.foldl
    (fun arr h =>
      if keepTweetHref h && !decide (h ∈ arr) then arr ++ [h] else arr) []

/-- Configuration fields of `scrapeBookmarks` relevant to its main loop.
`limit = 0` means unlimited. -/
structure LoopCfg where
  limit : Nat
  maxScrolls : Nat

/-- `MAX_CONSECUTIVE_EMPTY_SCROLLS` in `scrapeBookmarks`. -/
def MAX_CONSECUTIVE_EMPTY_SCROLLS : Nat := 15

/-- Mutable state of the `scrapeBookmarks` main loop: the tweet URLs of the
bookmarks collected so far (one bookmark object per entry), `processedCount`,
`scrollCount`, `consecutiveEmptyScrolls` and `reachedEnd`. -/
structure LoopState where
  processed : List (List Char)
  count : Nat
  scrolls : Nat
  emptyScrolls : Nat
  reachedEnd : Bool

/-- Body of the inner `for (const tweetUrl of visibleTweetLinks)` loop: a URL
already in the `processedUrls` snapshot, or seen after the limit is reached,
is skipped; otherwise it is processed, appending one bookmark and
incrementing `processedCount`.  The third component is `processedAny`. -/
def stepTweet (cfg : LoopCfg) (snap : List (List Char))
    (st : List (List Char) × Nat × Bool) (u : List Char) :
    List (List Char) × Nat × Bool :=
  if u ∈ snap ∨ (0 < cfg.limit ∧ cfg.limit ≤ st.2.1) then st
  else (st.1 ++ [u], st.2.1 + 1, true)

/-- One whole pass over the tweet links visible after the current scroll,
with `snap` the `processedUrls` set built at the top of the iteration. -/
def processVisible (cfg : LoopCfg) (snap : List (List Char))
    (l0 : List (List Char)) (c0 : Nat) (urls : List (List Char)) :
    List (List Char) × Nat × Bool :=
  urls.foldl (stepTweet cfg snap) (l0, c0, false)

/-- The `while` guard of the `scrapeBookmarks` main loop. -/
def loopCond (cfg : LoopCfg) (st : LoopState) : Bool :=
  !st.reachedEnd &&
  (decide (cfg.limit = 0) || decide (st.count < cfg.limit)) &&
  decide (st.scrolls < cfg.maxScrolls) &&
  decide (st.emptyScrolls < MAX_CONSECUTIVE_EMPTY_SCROLLS)

/-- One iteration of the main loop.  `vis` gives the tweet links visible on
the page after a given number of scrolls.  After processing, the consecutive
empty-scroll counter is reset or bumped, a scroll is performed unless the
limit has been reached, and `reachedEnd` is set once the empty-scroll counter
reaches `MAX_CONSECUTIVE_EMPTY_SCROLLS`. -/
def loopIter (cfg : LoopCfg) (vis : Nat → List (List Char))
    (st : LoopState) : LoopState :=
  let r := processVisible cfg st.processed st.processed st.count (vis st.scrolls)
  let ce := if r.2.2 then 0 else st.emptyScrolls + 1
  let sc := if cfg.limit = 0 ∨ r.2.1 < cfg.limit then st.scrolls + 1 else st.scrolls
  { processed := r.1
    count := r.2.1
    scrolls := sc
    emptyScrolls := ce
    reachedEnd := st.reachedEnd || decide (MAX_CONSECUTIVE_EMPTY_SCROLLS ≤ ce) }

/-- The main loop of `scrapeBookmarks`, with an explicit iteration budget:
iterate while the guard holds. -/
def runLoop (cfg : LoopCfg) (vis : Nat → List (List Char)) :
    Nat → LoopState → LoopState
  | 0, st => st
  | fuel + 1, st =>
    if loopCond cfg st then runLoop cfg vis fuel (loopIter cfg vis st) else st

/-- Loop state on entry: no bookmarks, no scrolls, no empty scrolls. -/
def initLoopState : LoopState :=
  { processed := [], count := 0, scrolls := 0, emptyScrolls := 0,
    reachedEnd := false }

/-- Candidate selectors for the username field in `enterUsername`
(`src/auth.js`), in source order. -/
def usernameSelectors : List String :=
  ["input[autocomplete=\"username\"]",
   "input[name=\"text\"]",
   "input[data-testid=\"ocfEnterTextTextInput\"]"]

/-- Candidate selectors for the Next button in `enterUsername`. -/
def nextButtonSelectors : List String :=
  ["div[role=\"button\"]:has-text(\"Next\")",
   "button[data-testid=\"auth-dialog-next\"]",
   "button:has-text(\"Next\")",
   "[data-testid=\"login-next-button\"]"]

/-- Candidate selectors for the password field in `enterPassword`. -/
def passwordSelectors : List String :=
  ["input[name=\"password\"]",
   "input[type=\"password\"]",
   "input[autocomplete=\"current-password\"]"]

/-- Candidate selectors for the login button in `enterPassword`. -/
def loginButtonSelectors : List String :=
  ["div[data-testid=\"LoginForm_Login_Button\"]",
   "button[data-testid=\"sign-in-button\"]",
   "button:has-text(\"Log in\")",
   "button:has-text(\"Sign in\")"]

/-- Success indicators checked by `verifyLoginSuccess`. -/
def successSelectors : List String :=
  ["a[data-testid=\"AppTabBar_Home_Link\"]",
   "a[data-testid=\"AppTabBar_Bookmarks_Link\"]",
   "a[href=\"/home\"]",
   "a[aria-label=\"Profile\"]",
   "div[data-testid=\"primaryColumn\"]"]

/-- Verification-challenge indicators checked by `verifyLoginSuccess`. -/
def verifyChallengeSelectors : List String :=
  ["input[data-testid=\"ocfEnterTextTextInput\"]",
   "input[name=\"text\"]",
   "div:has-text(\"Enter the verification code\")",
   "div:has-text(\"Verify your identity\")"]

/-- Login-error indicators checked by `verifyLoginSuccess`. -/
def loginErrorSelectors : List String :=
  ["div:has-text(\"Wrong password\")",
   "div:has-text(\"Incorrect password\")",
   "div:has-text(\"The username and password you entered did not match our records\")"]

/-- Abstraction of the login page driven by `authenticateTwitter`
(`src/auth.js`): which selectors currently match an element
(`page.$` / `page.waitForSelector`), which elements can be clicked without
throwing, the configured credentials, and the URL after the login attempt. -/
structure AuthEnv where
  present : String → Bool
  clickOk : String → Bool
  username : Option String
  password : Option String
  currentUrl : String

/-- `enterUsername` from `src/auth.js`: find the first matching username
selector, fail when none matches or the username is null, then click the
first Next button that is present and clickable (a throwing click moves on to
the next selector).  The security-challenge block re-enters the username but
does not change the returned status. -/
def enterUsername (env : AuthEnv) : Bool :=
  match usernameSelectors.find? env.present with
  | none => false
  | some _ =>
    if env.username.isNone then false
    else (nextButtonSelectors.find? fun s => env.present s && env.clickOk s).isSome

/-- `enterPassword` from `src/auth.js`: first matching password selector,
null check, then the first present-and-clickable login button. -/
def enterPassword (env : AuthEnv) : Bool :=
  match passwordSelectors.find? env.present with
  | none => false
  | some _ =>
    if env.password.isNone then false
    else (loginButtonSelectors.find? fun s => env.present s && env.clickOk s).isSome

/-- JS `String.prototype.includes` on the `String` wrapper type. -/
def strContains (s pat : String) : Bool :=
  containsSeg pat.data s.data

/-- `verifyLoginSuccess` from `src/auth.js`: fail when the URL still contains
`login` or `error`; succeed at the first success indicator; otherwise fail
(challenge indicators, error indicators, and the fall-through all return
`false`). -/
def verifyLoginSuccess (env : AuthEnv) : Bool :=
  if strContains env.currentUrl "login" || strContains env.currentUrl "error" then
    false
  else if (successSelectors.find? env.present).isSome then true
  else if (verifyChallengeSelectors.find? env.present).isSome then false
  else if (loginErrorSelectors.find? env.present).isSome then false
  else false

/-- Outcome of `authenticateTwitter`: whether the browser/context/page triple
is returned, whether the launched browser was closed, and the thrown error
message if any. -/
structure AuthResult where
  ok : Bool
  browserClosed : Bool
  errMsg : Option String
deriving DecidableEq

def authFailPre : String := "Failed to authenticate with Twitter: "

def userStepFailM : String := "Failed to enter username or proceed to password step"

def passStepFailM : String := "Failed to enter password or complete login"

def verifyStepFailM : String := "Could not verify successful login"

/-- `authenticateTwitter` from `src/auth.js`, after a successful browser
launch and navigation to the login page: run the three steps in order; the
first failing step throws, the catch block closes the browser and rethrows
with the `Failed to authenticate with Twitter: ` prefix; on success the
browser object is returned with the browser left open. -/
def authenticateTwitter (env : AuthEnv) : AuthResult :=
  if enterUsername env = false then
    { ok := false, browserClosed := true,
      errMsg := some (authFailPre ++ userStepFailM) }
  else if enterPassword env = false then
    { ok := false, browserClosed := true,
      errMsg := some (authFailPre ++ passStepFailM) }
  else if verifyLoginSuccess env = false then
    { ok := false, browserClosed := true,
      errMsg := some (authFailPre ++ verifyStepFailM) }
  else { ok := true, browserClosed := false, errMsg := none }

/-- `a` is the first element of `l` satisfying `p`: everything before it
fails `p`. -/
def firstSat {α : Type} (p : α → Bool) (l : List α) (a : α) : Prop :=
  ∃ pre post, l = pre ++ a :: post ∧ p a = true ∧ ∀ b ∈ pre, p b = false

/-- `p` is a prefix of `m` (for the error-message prefix property). -/
def strLeads (p m : String) : Prop :=
  ∃ t, p ++ t = m

theorem dropLit_eq_some : ∀ (p l r : List Char), dropLit p l = some r ↔ l = p ++ r := by
  intro p
  induction p with
  | nil => intro l r; simp [dropLit]
  | cons q ps ih =>
    intro l r
    cases l with
    | nil => simp [dropLit]
    | cons c cs =>
      simp only [dropLit, List.cons_append, List.cons.injEq]
      by_cases h : c = q
      · subst h; simp [ih]
      · simp [h]

theorem dropLit_self (p r : List Char) : dropLit p (p ++ r) = some r :=
  (dropLit_eq_some p (p ++ r) r).mpr rfl

theorem startsLit_iff (p l : List Char) :
    startsLit p l = true ↔ ∃ r, l = p ++ r := by
  simp only [startsLit, Option.isSome_iff_exists]
  constructor
  · rintro ⟨r, hr⟩; exact ⟨r, (dropLit_eq_some p l r).mp hr⟩
  · rintro ⟨r, hr⟩; exact ⟨r, (dropLit_eq_some p l r).mpr hr⟩

theorem containsSeg_iff (pat : List Char) :
    ∀ l : List Char, containsSeg pat l = true ↔ ∃ a b, a ++ pat ++ b = l := by
  intro l
  induction l with
  | nil =>
    simp only [containsSeg, List.isEmpty_iff]
    constructor
    · rintro rfl; exact ⟨[], [], rfl⟩
    · rintro ⟨a, b, h⟩
      rcases List.append_eq_nil.mp h with ⟨h1, h2⟩
      exact (List.append_eq_nil.mp h1).2
  | cons c t ih =>
    simp only [containsSeg, Bool.or_eq_true, startsLit_iff, ih]
    constructor
    · rintro (⟨r, hr⟩ | ⟨a, b, hab⟩)
      · exact ⟨[], r, by simp [hr]⟩
      · exact ⟨c :: a, b, by simp [hab]⟩
    · rintro ⟨a, b, hab⟩
      cases a with
      | nil => exact Or.inl ⟨b, by simpa using hab.symm⟩
      | cons a0 a' =>
        simp only [List.cons_append, List.cons.injEq] at hab
        exact Or.inr ⟨a', b, hab.2⟩

theorem containsSeg_iff_segOf (pat l : List Char) :
    containsSeg pat l = true ↔ isSegOf pat l := by
  rw [containsSeg_iff]; rfl

theorem endsLit_iff (p l : List Char) :
    endsLit p l = true ↔ ∃ q, l = q ++ p := by
  simp only [endsLit, startsLit_iff]
  constructor
  · rintro ⟨r, hr⟩
    refine ⟨r.reverse, ?_⟩
    have := congrArg List.reverse hr
    simpa using this
  · rintro ⟨q, rfl⟩
    exact ⟨q.reverse, by simp⟩

theorem takeWhile_all_sat {α : Type} (p : α → Bool) :
    ∀ (o x : List α), (∀ c ∈ o, p c = true) →
      (o ++ x).takeWhile p = o ++ x.takeWhile p ∧
      (o ++ x).dropWhile p = x.dropWhile p := by
  intro o
  induction o with
  | nil => intro x _; simp
  | cons c o' ih =>
    intro x h
    have hc : p c = true := h c (by simp)
    have ih' := ih x (fun d hd => h d (by simp [hd]))
    simp [List.takeWhile_cons, List.dropWhile_cons, hc, ih'.1, ih'.2]

theorem takeWhile_stop {α : Type} (p : α → Bool) (d : α) (rest : List α)
    (h : p d = false) :
    (d :: rest).takeWhile p = [] ∧ (d :: rest).dropWhile p = d :: rest := by
  simp [List.takeWhile_cons, List.dropWhile_cons, h]



theorem githubMatchHost_sound (pre l m r : List Char)
    (h : githubMatchHost pre l = some (m, r)) :
    ∃ core, m = pre ++ core ∧ l = core ++ r ∧
      ∃ o rp, nameSeg o ∧ nameSeg rp ∧ core = ghSlashL ++ o ++ '/' :: rp := by
  unfold githubMatchHost at h
  split at h
  · simp at h
  · rename_i l5 hgh
    split at h
    · simp at h
    · rename_i howner
      split at h
      · rename_i l7 hdrop
        split at h
        · simp at h
        · rename_i hrepo
          simp only [Option.some.injEq, Prod.mk.injEq] at h
          obtain ⟨hm, hr⟩ := h
          have hl : l = ghSlashL ++ l5 := (dropLit_eq_some _ _ _).mp hgh
          have h5 : l5.takeWhile isNameChar ++ '/' :: l7 = l5 := by
            rw [← hdrop]; exact List.takeWhile_append_dropWhile isNameChar l5
          have h7 : l7.takeWhile isNameChar ++ l7.dropWhile isNameChar = l7 :=
            List.takeWhile_append_dropWhile isNameChar l7
          have hcore : l5 = l5.takeWhile isNameChar ++
              '/' :: (l7.takeWhile isNameChar ++ l7.dropWhile isNameChar) := by
            rw [h7, h5]
          refine ⟨ghSlashL ++ l5.takeWhile isNameChar ++
            '/' :: l7.takeWhile isNameChar, ?_, ?_, ?_⟩
          · rw [← hm]; simp [List.append_assoc]
          · rw [hl, ← hr]
            conv_lhs => rw [hcore]
            simp [List.append_assoc]
          · exact ⟨l5.takeWhile isNameChar, l7.takeWhile isNameChar,
              ⟨by simpa using howner, fun c hc => List.mem_takeWhile_imp hc⟩,
              ⟨by simpa using hrepo, fun c hc => List.mem_takeWhile_imp hc⟩, rfl⟩
      · simp at h

theorem githubMatchScheme_sound (pre l m r : List Char)
    (h : githubMatchScheme pre l = some (m, r)) :
    ∃ core, m = pre ++ core ∧ l = core ++ r ∧
      ∃ (w : Bool) (o rp : List Char), nameSeg o ∧ nameSeg rp ∧
        core = colonSlashL ++ (cond w wwwL []) ++ ghSlashL ++ o ++ '/' :: rp := by
  unfold githubMatchScheme at h
  split at h
  · simp at h
  · rename_i l3 hcs
    have hl : l = colonSlashL ++ l3 := (dropLit_eq_some _ _ _).mp hcs
    split at h
    · rename_i l4 hwww
      have hl3 : l3 = wwwL ++ l4 := (dropLit_eq_some _ _ _).mp hwww
      obtain ⟨core, hm, hcr, o, rp, ho, hrp, hcore⟩ :=
        githubMatchHost_sound _ _ _ _ h
      refine ⟨colonSlashL ++ wwwL ++ core, ?_, ?_, true, o, rp, ho, hrp, ?_⟩
      · rw [hm]; simp [List.append_assoc]
      · rw [hl, hl3, hcr]; simp [List.append_assoc]
      · rw [hcore]; simp [List.append_assoc]
    · rename_i hwww
      obtain ⟨core, hm, hcr, o, rp, ho, hrp, hcore⟩ :=
        githubMatchHost_sound _ _ _ _ h
      refine ⟨colonSlashL ++ core, ?_, ?_, false, o, rp, ho, hrp, ?_⟩
      · rw [hm]; simp [List.append_assoc]
      · rw [hl, hcr]; simp [List.append_assoc]
      · rw [hcore]; simp [List.append_assoc]

theorem githubMatch_sound (l m r : List Char)
    (h : githubMatch l = some (m, r)) :
    fullMatch m ∧ l = m ++ r ∧ m ≠ [] := by
  unfold githubMatch at h
  split at h
  · simp at h
  · rename_i l1 hhttp
    have hl : l = httpL ++ l1 := (dropLit_eq_some _ _ _).mp hhttp
    split at h
    · rename_i l2 hs
      have hl1 : l1 = sL ++ l2 := (dropLit_eq_some _ _ _).mp hs
      obtain ⟨core, hm, hcr, w, o, rp, ho, hrp, hcore⟩ :=
        githubMatchScheme_sound _ _ _ _ h
      refine ⟨⟨true, w, o, rp, ho, hrp, ?_⟩, ?_, ?_⟩
      · rw [hm, hcore]; simp [List.append_assoc]
      · rw [hl, hl1, hcr, hm]; simp [List.append_assoc]
      · rw [hm]; simp [httpL]
    · rename_i hs
      obtain ⟨core, hm, hcr, w, o, rp, ho, hrp, hcore⟩ :=
        githubMatchScheme_sound _ _ _ _ h
      refine ⟨⟨false, w, o, rp, ho, hrp, ?_⟩, ?_, ?_⟩
      · rw [hm, hcore]; simp [List.append_assoc]
      · rw [hl, hcr, hm]; simp [List.append_assoc]
      · rw [hm]; simp [httpL]

theorem githubMatchHost_complete (pre o rp rest : List Char)
    (ho : nameSeg o) (hrp : nameSeg rp) :
    (githubMatchHost pre (ghSlashL ++ (o ++ '/' :: (rp ++ rest)))).isSome = true := by
  have hstop := takeWhile_stop isNameChar '/' (rp ++ rest) (by decide)
  have hsat := takeWhile_all_sat isNameChar o ('/' :: (rp ++ rest)) ho.2
  have htw : (o ++ '/' :: (rp ++ rest)).takeWhile isNameChar = o := by
    rw [hsat.1, hstop.1, List.append_nil]
  have hdw : (o ++ '/' :: (rp ++ rest)).dropWhile isNameChar = '/' :: (rp ++ rest) := by
    rw [hsat.2, hstop.2]
  have hrw : (rp ++ rest).takeWhile isNameChar =
      rp ++ rest.takeWhile isNameChar :=
    (takeWhile_all_sat isNameChar rp rest hrp.2).1
  have hoe : o.isEmpty = false := by
    cases o with
    | nil => exact absurd rfl ho.1
    | cons a b => rfl
  have hre : ((rp ++ rest).takeWhile isNameChar).isEmpty = false := by
    rw [hrw]
    cases rp with
    | nil => exact absurd rfl hrp.1
    | cons a b => rfl
  unfold githubMatchHost
  rw [dropLit_self]
  simp only [htw, hdw, hoe, Bool.false_eq_true, if_false, hre]
  rfl

theorem githubMatchScheme_complete (pre : List Char) (w : Bool)
    (o rp rest : List Char) (ho : nameSeg o) (hrp : nameSeg rp) :
    (githubMatchScheme pre
      (colonSlashL ++ ((cond w wwwL []) ++ (ghSlashL ++ (o ++ '/' :: (rp ++ rest)))))).isSome
      = true := by
  unfold githubMatchScheme
  rw [dropLit_self]
  cases w with
  | true =>
    simp only [cond_true]
    rw [show dropLit wwwL (wwwL ++ (ghSlashL ++ (o ++ '/' :: (rp ++ rest)))) =
      some (ghSlashL ++ (o ++ '/' :: (rp ++ rest))) from dropLit_self _ _]
    exact githubMatchHost_complete _ _ _ _ ho hrp
  | false =>
    simp only [cond_false, List.nil_append]
    have hw : dropLit wwwL (ghSlashL ++ (o ++ '/' :: (rp ++ rest))) = none := by
      simp [ghSlashL, wwwL, dropLit]
    rw [hw]
    exact githubMatchHost_complete _ _ _ _ ho hrp


theorem githubMatch_eq (X : List Char) :
    githubMatch (httpL ++ X) =
      match dropLit sL X with
      | some l2 => githubMatchScheme (httpL ++ sL) l2
      | none => githubMatchScheme httpL X := by
  unfold githubMatch; rw [dropLit_self]


theorem githubMatch_complete (m rest : List Char) (hm : fullMatch m) :
    (githubMatch (m ++ rest)).isSome = true := by
  obtain ⟨s, w, o, rp, ho, hrp, hshape⟩ := hm
  subst hshape
  cases s with
  | true =>
    simp only [cond_true, List.append_assoc, List.cons_append]
    rw [githubMatch_eq, dropLit_self]
    exact githubMatchScheme_complete _ w o rp rest ho hrp
  | false =>
    simp only [cond_false, List.append_assoc, List.cons_append, List.nil_append]
    rw [githubMatch_eq]
    have hs : dropLit sL (colonSlashL ++ ((cond w wwwL []) ++
        (ghSlashL ++ (o ++ '/' :: (rp ++ rest))))) = none := by
      simp [sL, colonSlashL, dropLit]
    rw [hs]
    exact githubMatchScheme_complete _ w o rp rest ho hrp

theorem fullMatch_ne_nil (u : List Char) (h : fullMatch u) : u ≠ [] := by
  obtain ⟨s, w, o, rp, _, _, hshape⟩ := h
  subst hshape
  simp [httpL]

theorem isSegOf_cons (u t : List Char) (c : Char) (h : isSegOf u t) :
    isSegOf u (c :: t) := by
  obtain ⟨p, s, hps⟩ := h
  exact ⟨c :: p, s, by simp [hps]⟩

theorem isSegOf_append_left (u m r : List Char) (h : isSegOf u r) :
    isSegOf u (m ++ r) := by
  obtain ⟨p, s, hps⟩ := h
  exact ⟨m ++ p, s, by rw [← hps]; simp [List.append_assoc]⟩

theorem scanGithub_sound :
    ∀ (fuel : Nat) (l u : List Char), u ∈ scanGithub fuel l →
      fullMatch u ∧ isSegOf u l := by
  intro fuel
  induction fuel with
  | zero => intro l u hu; simp [scanGithub] at hu
  | succ f ih =>
    intro l u hu
    cases l with
    | nil => simp [scanGithub] at hu
    | cons c t =>
      simp only [scanGithub] at hu
      cases hg : githubMatch (c :: t) with
      | some mr =>
        obtain ⟨m, r⟩ := mr
        rw [hg] at hu
        simp only [List.mem_cons] at hu
        obtain ⟨hfm, hmr, _⟩ := githubMatch_sound _ _ _ hg
        cases hu with
        | inl h => exact ⟨h ▸ hfm, h ▸ ⟨[], r, by simp [hmr.symm]⟩⟩
        | inr h =>
          obtain ⟨h1, h2⟩ := ih r u h
          exact ⟨h1, hmr ▸ isSegOf_append_left u m r h2⟩
      | none =>
        rw [hg] at hu
        obtain ⟨h1, h2⟩ := ih t u hu
        exact ⟨h1, isSegOf_cons u t c h2⟩

theorem scanGithub_ne_of_seg :
    ∀ (fuel : Nat) (l u : List Char), l.length ≤ fuel → isSegOf u l →
      fullMatch u → scanGithub fuel l ≠ [] := by
  intro fuel
  induction fuel with
  | zero =>
    intro l u hlen hseg hfm
    have hl : l = [] := List.length_eq_zero.mp (Nat.le_zero.mp hlen)
    subst hl
    obtain ⟨p, s, hps⟩ := hseg
    rcases List.append_eq_nil.mp hps with ⟨h1, _⟩
    exact absurd (List.append_eq_nil.mp h1).2 (fullMatch_ne_nil u hfm)
  | succ f ih =>
    intro l u hlen hseg hfm
    cases l with
    | nil =>
      obtain ⟨p, s, hps⟩ := hseg
      rcases List.append_eq_nil.mp hps with ⟨h1, _⟩
      exact absurd (List.append_eq_nil.mp h1).2 (fullMatch_ne_nil u hfm)
    | cons c t =>
      simp only [scanGithub]
      cases hg : githubMatch (c :: t) with
      | some mr => obtain ⟨m, r⟩ := mr; simp
      | none =>
        obtain ⟨p, s, hps⟩ := hseg
        cases p with
        | nil =>
          simp only [List.nil_append] at hps
          have : (githubMatch (c :: t)).isSome = true := by
            rw [← hps]; exact githubMatch_complete u s hfm
          rw [hg] at this
          simp at this
        | cons p0 p' =>
          simp only [List.cons_append, List.cons.injEq] at hps
          have hseg' : isSegOf u t := ⟨p', s, hps.2⟩
          have hlen' : t.length ≤ f := by
            simpa using Nat.lt_succ_iff.mp (by simpa using Nat.lt_of_lt_of_le (by simp) hlen)
          exact ih t u hlen' hseg' hfm

/-- C1: `extractGitHubLinks` returns exactly the (global, leftmost, maximal)
matches of `https?://(www.)?github.com/<owner>/<repo>` occurring in the
input, with owner and repo over `[a-zA-Z0-9_-]+`, excluding matches that
contain `github.com/login`, `github.com/signup`, or `github.com/account`;
null/undefined or empty input yields the empty list.  Every returned string
is a substring fully matching the pattern and not excluded; a match occurs
somewhere in the input iff the scanner finds one; and every non-excluded
scanner match is returned. -/
theorem extractGitHubLinks_spec :
    extractGitHubLinks none = [] ∧
    extractGitHubLinks (some []) = [] ∧
    (∀ l u, u ∈ extractGitHubLinks (some l) →
      fullMatch u ∧ isSegOf u l ∧
      containsSeg loginL u = false ∧ containsSeg signupL u = false ∧
      containsSeg accountL u = false) ∧
    (∀ l, (∃ u, isSegOf u l ∧ fullMatch u) ↔ scanGithub l.length l ≠ []) ∧
    (∀ l u, u ∈ scanGithub l.length l →
      containsSeg loginL u = false → containsSeg signupL u = false →
      containsSeg accountL u = false → u ∈ extractGitHubLinks (some l)) := by
  refine ⟨rfl, rfl, ?_, ?_, ?_⟩
  · intro l u hu
    cases l with
    | nil => simp [extractGitHubLinks] at hu
    | cons c t =>
      simp only [extractGitHubLinks, List.mem_filter, Bool.and_eq_true,
        Bool.not_eq_true'] at hu
      obtain ⟨hscan, ⟨h1, h2⟩, h3⟩ := hu
      obtain ⟨hfm, hseg⟩ := scanGithub_sound _ _ _ hscan
      exact ⟨hfm, hseg, h1, h2, h3⟩
  · intro l
    constructor
    · rintro ⟨u, hseg, hfm⟩
      exact scanGithub_ne_of_seg l.length l u le_rfl hseg hfm
    · intro hne
      obtain ⟨u, hu⟩ := List.exists_mem_of_ne_nil _ hne
      obtain ⟨hfm, hseg⟩ := scanGithub_sound _ _ _ hu
      exact ⟨u, hseg, hfm⟩
  · intro l u hscan h1 h2 h3
    cases l with
    | nil => simp [scanGithub] at hscan
    | cons c t =>
      simp only [extractGitHubLinks, List.mem_filter, Bool.and_eq_true,
        Bool.not_eq_true']
      exact ⟨hscan, ⟨h1, h2⟩, h3⟩

/-- Concrete instantiation of `extractGitHubLinks_spec`: the URL
`https://github.com/user-name/repo_1` extracted from a longer text is a full
pattern match, occurs in the text, and contains no excluded fragment. -/
theorem extractGitHubLinks_spec_witness :
    fullMatch "https://github.com/user-name/repo_1".data ∧
    isSegOf "https://github.com/user-name/repo_1".data
      "see https://github.com/user-name/repo_1 now".data ∧
    containsSeg loginL "https://github.com/user-name/repo_1".data = false ∧
    containsSeg signupL "https://github.com/user-name/repo_1".data = false ∧
    containsSeg accountL "https://github.com/user-name/repo_1".data = false :=
  extractGitHubLinks_spec.2.2.1 "see https://github.com/user-name/repo_1 now".data
    "https://github.com/user-name/repo_1".data (by decide)

theorem mem_setAdd {α : Type} [DecidableEq α] (s : List α) (a x : α) :
    x ∈ setAdd s a ↔ x ∈ s ∨ x = a := by
  unfold setAdd
  split
  · rename_i hmem
    constructor
    · exact Or.inl
    · rintro (h | rfl)
      · exact h
      · exact hmem
  · simp

theorem setAdd_self {α : Type} [DecidableEq α] (s : List α) (a : α) :
    a ∈ setAdd s a := (mem_setAdd s a a).mpr (Or.inr rfl)

theorem procLink_fst (st : Option (List Char) × List (List Char)) (e : LinkEv) :
    (procLink st e).1 = match qualFinal e with
      | some f => some f
      | none => st.1 := by
  unfold procLink qualFinal
  cases hf : followedB e with
  | false => simp
  | true =>
    cases e.finalUrl with
    | none => simp
    | some f =>
      by_cases hg : isGithubFinal f
      · simp [hg]
      · simp [hg]

theorem qualFinals_cons (e : LinkEv) (evs : List LinkEv) :
    qualFinals (e :: evs) = match qualFinal e with
      | some f => f :: qualFinals evs
      | none => qualFinals evs := by
  unfold qualFinals
  cases hq : qualFinal e with
  | some f => simp [List.filterMap_cons, hq]
  | none => simp [List.filterMap_cons, hq]

theorem foldl_procLink_fst :
    ∀ (evs : List LinkEv) (st : Option (List Char) × List (List Char)),
      (evs.foldl procLink st).1 = lastD (qualFinals evs) st.1 := by
  intro evs
  induction evs with
  | nil => intro st; simp [qualFinals, lastD]
  | cons e evs ih =>
    intro st
    rw [List.foldl_cons, ih, qualFinals_cons]
    cases hq : qualFinal e with
    | some f => simp [lastD, procLink_fst, hq]
    | none => simp [lastD, procLink_fst, hq]


theorem getLast_cons_ex {α : Type} :
    ∀ (l : List α) (b : α), ∃ x, (b :: l).getLast? = some x := by
  intro l
  induction l with
  | nil => intro b; exact ⟨b, rfl⟩
  | cons c l ih =>
    intro b
    obtain ⟨x, hx⟩ := ih c
    exact ⟨x, by rw [List.getLast?_cons_cons, hx]⟩

theorem lastD_eq_getLast? {α : Type} :
    ∀ (l : List α) (d : Option α), lastD l d =
      match l.getLast? with
      | some a => some a
      | none => d := by
  intro l
  induction l with
  | nil => intro d; simp [lastD]
  | cons a l ih =>
    intro d
    rw [lastD, ih]
    cases l with
    | nil => simp
    | cons b l' =>
      obtain ⟨x, hx⟩ := getLast_cons_ex l' b
      rw [hx, List.getLast?_cons_cons, hx]

theorem foldl_procLink_mem :
    ∀ (evs : List LinkEv) (st : Option (List Char) × List (List Char))
      (f : List Char), (f ∈ st.2 ∨ f ∈ resolvedFinals evs) →
      f ∈ (evs.foldl procLink st).2 := by
  intro evs
  induction evs with
  | nil =>
    intro st f hf
    rcases hf with h | h
    · simpa using h
    · simp [resolvedFinals] at h
  | cons e evs ih =>
    intro st f hf
    rw [List.foldl_cons]
    rcases hf with h | h
    · refine ih _ f (Or.inl ?_)
      by_cases hfol : followedB e = true
      · cases hfin : e.finalUrl with
        | none => simpa [procLink, hfol, hfin] using h
        | some g =>
          simp only [procLink, hfol, hfin, if_true]
          exact (mem_setAdd _ _ _).mpr (Or.inl h)
      · simpa [procLink, hfol] using h
    · have h' : (followedB e = true ∧ e.finalUrl = some f) ∨
          f ∈ resolvedFinals evs := by
        unfold resolvedFinals at h
        rw [List.filterMap_cons] at h
        by_cases hfol : followedB e = true
        · rw [if_pos hfol] at h
          cases hfin : e.finalUrl with
          | none => rw [hfin] at h; exact Or.inr h
          | some g =>
            rw [hfin] at h
            rcases List.mem_cons.mp h with rfl | hh
            · exact Or.inl ⟨hfol, rfl⟩
            · exact Or.inr hh
        · rw [if_neg hfol] at h
          exact Or.inr h
      rcases h' with ⟨hfol, hfin⟩ | h'
      · refine ih _ f (Or.inl ?_)
        simp only [procLink, hfol, hfin, if_true]
        exact setAdd_self _ _
      · exact ih _ f (Or.inr h')

theorem qualFinal_eq_some (e : LinkEv) (f : List Char) :
    qualFinal e = some f ↔
      followedB e = true ∧ e.finalUrl = some f ∧ isGithubFinal f = true := by
  unfold qualFinal
  by_cases hfol : followedB e = true
  · rw [if_pos hfol]
    cases hfin : e.finalUrl with
    | none => simp [hfol]
    | some g =>
      by_cases hg : isGithubFinal g = true
      · simp only [hg, if_true, Option.some.injEq, hfol, true_and]
        constructor
        · rintro rfl; exact ⟨rfl, hg⟩
        · rintro ⟨hgf, _⟩; exact hgf
      · simp only [hg, if_false, hfol, true_and, Option.some.injEq]
        constructor
        · intro h; exact absurd h (by simp)
        · rintro ⟨rfl, hgit⟩; exact absurd hgit hg
  · rw [if_neg hfol]
    simp [hfol]

theorem mem_of_getLast_eq {α : Type} :
    ∀ (l : List α) (a : α), l.getLast? = some a → a ∈ l := by
  intro l
  induction l with
  | nil => intro a h; simp at h
  | cons b l ih =>
    intro a h
    cases l with
    | nil => simp at h; simp [h]
    | cons c l' =>
      rw [List.getLast?_cons_cons] at h
      exact List.mem_cons_of_mem b (ih a h)

theorem qualFinals_sub_resolved (evs : List LinkEv) (f : List Char)
    (h : f ∈ qualFinals evs) : f ∈ resolvedFinals evs := by
  obtain ⟨e, he, hq⟩ := List.mem_filterMap.mp h
  obtain ⟨hfol, hfin, _⟩ := (qualFinal_eq_some e f).mp hq
  exact List.mem_filterMap.mpr ⟨e, he, by rw [if_pos hfol, hfin]⟩

/-- C2: for a processed bookmark, `github_url` is non-null iff some followed
link resolved to a final URL containing `github.com` and neither
`github.com/login` nor `github.com/signup`; it equals the final URL of the
last qualifying link; and every qualifying final URL is in `all_links`. -/
theorem scrapeBookmarks_github_url_spec (evs : List LinkEv) :
    ((processLinks evs).1.isSome = true ↔
      ∃ e ∈ evs, followedB e = true ∧
        ∃ f, e.finalUrl = some f ∧ isGithubFinal f = true) ∧
    (processLinks evs).1 = (qualFinals evs).getLast? ∧
    (∀ f ∈ qualFinals evs, f ∈ (processLinks evs).2) := by
  have h2 : (processLinks evs).1 = (qualFinals evs).getLast? := by
    unfold processLinks
    rw [foldl_procLink_fst, lastD_eq_getLast?]
    cases (qualFinals evs).getLast? <;> rfl
  refine ⟨?_, h2, ?_⟩
  · rw [h2]
    constructor
    · intro hs
      obtain ⟨f, hf⟩ := Option.isSome_iff_exists.mp hs
      obtain ⟨e, he, hq⟩ := List.mem_filterMap.mp
        (mem_of_getLast_eq _ _ hf)
      obtain ⟨hfol, hfin, hg⟩ := (qualFinal_eq_some e f).mp hq
      exact ⟨e, he, hfol, f, hfin, hg⟩
    · rintro ⟨e, he, hfol, f, hfin, hg⟩
      have hmem : f ∈ qualFinals evs :=
        List.mem_filterMap.mpr ⟨e, he, (qualFinal_eq_some e f).mpr ⟨hfol, hfin, hg⟩⟩
      cases hql : qualFinals evs with
      | nil => rw [hql] at hmem; simp at hmem
      | cons a l =>
        obtain ⟨x, hx⟩ := getLast_cons_ex l a
        rw [hx]
        rfl
  · intro f hf
    exact foldl_procLink_mem evs (none, []) f
      (Or.inr (qualFinals_sub_resolved evs f hf))

/-- Concrete instantiation of `scrapeBookmarks_github_url_spec`: a single
followed link resolving to a GitHub repository URL ends up in `all_links`. -/
theorem scrapeBookmarks_github_url_spec_witness :
    "https://github.com/a/b".data ∈
      (processLinks [⟨some "/x".data, some "https://github.com/a/b".data⟩]).2 :=
  (scrapeBookmarks_github_url_spec
      [⟨some "/x".data, some "https://github.com/a/b".data⟩]).2.2
    "https://github.com/a/b".data (by decide)

/-- C3: the redirect resolver visits candidate links one at a time in order;
a link whose navigation fails contributes nothing to the bookmark state and
processing continues with the remaining links unchanged, while a successful
navigation records the redirect tab's final URL in `all_links`. -/
theorem redirect_resolver_error_isolation (pre post : List LinkEv) (e : LinkEv)
    (hfol : followedB e = true) :
    (e.finalUrl = none →
      processLinks (pre ++ e :: post) = processLinks (pre ++ post)) ∧
    (∀ f, e.finalUrl = some f →
      f ∈ (processLinks (pre ++ e :: post)).2) := by
  constructor
  · intro hnone
    unfold processLinks
    rw [List.foldl_append, List.foldl_append, List.foldl_cons]
    congr 1
    simp [procLink, hfol, hnone]
  · intro f hfin
    unfold processLinks
    rw [List.foldl_append, List.foldl_cons]
    apply foldl_procLink_mem
    left
    simp only [procLink, hfol, hfin, if_true]
    exact setAdd_self _ _

/-- Concrete instantiation of `redirect_resolver_error_isolation`: a followed
link whose navigation throws leaves the result exactly as if it were absent. -/
theorem redirect_resolver_error_isolation_witness :
    processLinks [⟨some "/x".data, none⟩] = processLinks [] :=
  (redirect_resolver_error_isolation [] [] ⟨some "/x".data, none⟩ (by decide)).1 rfl

theorem isSkippedHref_false_iff (h : List Char) :
    isSkippedHref h = false ↔
      h ≠ [] ∧ (¬ ∃ r, h = hashL ++ r) ∧ h ≠ slashOnlyL ∧
      ¬ isSegOf searchQL h ∧ ¬ isSegOf listsL h ∧ ¬ isSegOf topicsL h ∧
      ¬ ∃ q, h = q ++ analyticsL := by
  unfold isSkippedHref
  constructor
  · intro hs
    simp only [Bool.or_eq_false_iff] at hs
    obtain ⟨⟨⟨⟨⟨⟨h1, h2⟩, h3⟩, h4⟩, h5⟩, h6⟩, h7⟩ := hs
    refine ⟨?_, ?_, ?_, ?_, ?_, ?_, ?_⟩
    · intro hnil; rw [hnil] at h1; cases h1
    · intro hex; rw [(startsLit_iff hashL h).mpr hex] at h2; cases h2
    · intro heq; rw [heq] at h3; simp at h3
    · intro hseg; rw [(containsSeg_iff_segOf _ _).mpr hseg] at h4; cases h4
    · intro hseg; rw [(containsSeg_iff_segOf _ _).mpr hseg] at h5; cases h5
    · intro hseg; rw [(containsSeg_iff_segOf _ _).mpr hseg] at h6; cases h6
    · intro hex; rw [(endsLit_iff analyticsL h).mpr hex] at h7; cases h7
  · rintro ⟨h1, h2, h3, h4, h5, h6, h7⟩
    simp only [Bool.or_eq_false_iff]
    refine ⟨⟨⟨⟨⟨⟨?_, ?_⟩, ?_⟩, ?_⟩, ?_⟩, ?_⟩, ?_⟩
    · exact Bool.eq_false_iff.mpr fun ht => h1 (List.isEmpty_iff.mp ht)
    · exact Bool.eq_false_iff.mpr fun ht => h2 ((startsLit_iff hashL h).mp ht)
    · exact Bool.eq_false_iff.mpr fun ht => h3 (of_decide_eq_true ht)
    · exact Bool.eq_false_iff.mpr fun ht => h4 ((containsSeg_iff_segOf _ _).mp ht)
    · exact Bool.eq_false_iff.mpr fun ht => h5 ((containsSeg_iff_segOf _ _).mp ht)
    · exact Bool.eq_false_iff.mpr fun ht => h6 ((containsSeg_iff_segOf _ _).mp ht)
    · exact Bool.eq_false_iff.mpr fun ht => h7 ((endsLit_iff analyticsL h).mp ht)

/-- C4 counterexample: the claim says Twitter-internal links, including other
`/status/` links, are never navigated.  The relative permalink
`/someuser/status/123` of a reply (or of the main post) contains `/status/`
yet passes the skip filter, so the scraper does navigate the redirect tab to
it. -/
theorem scrape_follows_internal_status_link :
    ¬ (∀ (e : LinkEv) (h : List Char), e.href = some h →
        containsSeg statusSegL h = true → followedB e = false) := by
  intro H
  exact absurd
    (H ⟨some "/someuser/status/123".data, none⟩ "/someuser/status/123".data
      rfl (by decide))
    (by decide)

/-- C4 amended: candidate links are harvested from every tweet element on the
opened post's page (the main post included), and a link is followed iff its
href attribute is present and is not: empty, a fragment link starting with
`#`, the bare `/`, a link containing `/search?`, `/i/lists/` or
`/i/topics/`, or a link ending in `/analytics`.  All other links — including
twitter.com/x.com-internal ones such as relative `/status/` permalinks — are
navigated. -/
theorem link_filter_characterization (tweets : List (List LinkEv)) (e : LinkEv) :
    (e ∈ harvestPage tweets ↔ ∃ t ∈ tweets, e ∈ t) ∧
    (followedB e = true ↔ ∃ h, e.href = some h ∧ h ≠ [] ∧
      (¬ ∃ r, h = hashL ++ r) ∧ h ≠ slashOnlyL ∧
      ¬ isSegOf searchQL h ∧ ¬ isSegOf listsL h ∧ ¬ isSegOf topicsL h ∧
      ¬ ∃ q, h = q ++ analyticsL) := by
  constructor
  · simp [harvestPage]
  · cases hh : e.href with
    | none => simp [followedB, hh]
    | some h =>
      simp only [followedB, hh, Bool.not_eq_true', Option.some.injEq]
      constructor
      · intro hn
        exact ⟨h, rfl, (isSkippedHref_false_iff h).mp hn⟩
      · rintro ⟨h2, heq, hconds⟩
        rw [heq]
        exact (isSkippedHref_false_iff h2).mpr hconds

/-- Concrete instantiation of `link_filter_characterization`: an ordinary
external link is followed and satisfies all the negative conditions. -/
theorem link_filter_characterization_witness :
    ∃ h, (LinkEv.mk (some "https://example.com/page".data) none).href = some h ∧
      h ≠ [] ∧ (¬ ∃ r, h = hashL ++ r) ∧ h ≠ slashOnlyL ∧
      ¬ isSegOf searchQL h ∧ ¬ isSegOf listsL h ∧ ¬ isSegOf topicsL h ∧
      ¬ ∃ q, h = q ++ analyticsL :=
  (link_filter_characterization []
    (LinkEv.mk (some "https://example.com/page".data) none)).2.mp (by decide)

theorem anyUrl_eq (E : List Entry) (b : Entry) :
    (!(E.any fun e => decide (e.tweet_url = b.tweet_url))) =
      decide (b.tweet_url ∉ E.map Entry.tweet_url) := by
  by_cases h : b.tweet_url ∈ E.map Entry.tweet_url
  · obtain ⟨e, he, heq⟩ := List.mem_map.mp h
    have ha : E.any (fun e => decide (e.tweet_url = b.tweet_url)) = true :=
      List.any_eq_true.mpr ⟨e, he, by simp [heq]⟩
    simp [ha, h]
  · have ha : E.any (fun e => decide (e.tweet_url = b.tweet_url)) = false := by
      rw [List.any_eq_false]
      intro e he
      simp only [decide_eq_true_eq]
      intro heq
      exact h (List.mem_map.mpr ⟨e, he, heq⟩)
    simp [ha, h]

/-- C5: in append mode over an existing JSON array `E`, `processOutput`
writes `E` followed by exactly the freshly formatted bookmarks whose
`tweet_url` does not occur in `E`; with append off, or append on with a
missing file, it writes exactly the freshly formatted bookmarks. -/
theorem processOutput_append_spec (bs : List RawBookmark) (E : List Entry)
    (file : FileContent) :
    processOutput bs true (.jsonArray E) =
      E ++ (formatBookmarks bs).filter
        (fun b => decide (b.tweet_url ∉ E.map Entry.tweet_url)) ∧
    (∀ b ∈ (processOutput bs true (.jsonArray E)).drop E.length,
      b.tweet_url ∉ E.map Entry.tweet_url) ∧
    processOutput bs false file = formatBookmarks bs ∧
    processOutput bs true .missing = formatBookmarks bs := by
  have h1 : processOutput bs true (.jsonArray E) =
      E ++ (formatBookmarks bs).filter
        (fun b => decide (b.tweet_url ∉ E.map Entry.tweet_url)) := by
    unfold processOutput
    simp only [if_true]
    congr 1
    apply List.filter_congr
    intro b _
    exact anyUrl_eq E b
  refine ⟨h1, ?_, rfl, rfl⟩
  intro b hb
  rw [h1, List.drop_left] at hb
  exact of_decide_eq_true (List.mem_filter.mp hb).2

/-- Concrete instantiation of `processOutput_append_spec`: a bookmark whose
tweet URL is new survives the append-mode deduplication, and its URL indeed
does not occur among the existing entries. -/
theorem processOutput_append_spec_witness :
    (Entry.mk none "t2".data none ["https://x.y".data] "now".data).tweet_url ∉
      ([Entry.mk none "t1".data none ["l".data] "then".data].map Entry.tweet_url) :=
  (processOutput_append_spec
      [RawBookmark.mk "t2".data none none none ["https://x.y".data] "now".data]
      [Entry.mk none "t1".data none ["l".data] "then".data]
      FileContent.missing).2.1
    (Entry.mk none "t2".data none ["https://x.y".data] "now".data) (by decide)

theorem nodup_foldl_setAdd :
    ∀ (l acc : List (List Char)), acc.Nodup → (l.foldl setAdd acc).Nodup := by
  intro l
  induction l with
  | nil => intro acc h; exact h
  | cons a l ih =>
    intro acc h
    rw [List.foldl_cons]
    apply ih
    unfold setAdd
    split
    · exact h
    · rename_i hna
      simp [List.nodup_append, h, hna]

theorem mem_foldl_setAdd :
    ∀ (l acc : List (List Char)) (a : List Char), (a ∈ acc ∨ a ∈ l) →
      a ∈ l.foldl setAdd acc := by
  intro l
  induction l with
  | nil =>
    intro acc a ha
    rcases ha with h | h
    · exact h
    · simp at h
  | cons b l ih =>
    intro acc a ha
    rw [List.foldl_cons]
    rcases ha with h | h
    · exact ih _ a (Or.inl ((mem_setAdd acc b a).mpr (Or.inl h)))
    · rcases List.mem_cons.mp h with rfl | h'
      · exact ih _ a (Or.inl (setAdd_self acc a))
      · exact ih _ a (Or.inr h')

theorem dedupKeepFirst_nodup (l : List (List Char)) : (dedupKeepFirst l).Nodup :=
  nodup_foldl_setAdd l [] (by simp)

theorem dedupKeepFirst_ne_nil (l : List (List Char)) (h : l ≠ []) :
    dedupKeepFirst l ≠ [] := by
  cases l with
  | nil => exact absurd rfl h
  | cons a t =>
    exact List.ne_nil_of_mem (mem_foldl_setAdd (a :: t) [] a (Or.inr (by simp)))

/-- C10: every freshly written bookmark has duplicate-free `all_links` and at
least one link (a GitHub URL or a nonempty `all_links`); bookmarks with
neither are filtered out before writing; and in append mode the pre-existing
entries are carried over unchanged (hence not subject to the invariant),
every appended entry coming from the freshly formatted batch. -/
theorem output_written_invariants (bs : List RawBookmark) (E : List Entry) :
    (∀ b ∈ formatBookmarks bs, b.all_links.Nodup ∧
      (b.github_url.isSome = true ∨ b.all_links ≠ [])) ∧
    (∀ r ∈ bs, r.github_url = none → r.all_links = [] →
      keepBookmark r = false) ∧
    (processOutput bs true (.jsonArray E)).take E.length = E ∧
    (∀ b ∈ (processOutput bs true (.jsonArray E)).drop E.length,
      b ∈ formatBookmarks bs) := by
  refine ⟨?_, ?_, ?_, ?_⟩
  · intro b hb
    unfold formatBookmarks at hb
    obtain ⟨r, hr, hfmt⟩ := List.mem_map.mp hb
    have hkeep : keepBookmark r = true := (List.mem_filter.mp hr).2
    unfold keepBookmark at hkeep
    rw [Bool.not_eq_eq_eq_not, Bool.not_true, Bool.and_eq_false_iff] at hkeep
    constructor
    · rw [← hfmt]
      exact dedupKeepFirst_nodup _
    · rcases hkeep with hg | hl
      · left
        rw [← hfmt]
        simp only [formatBookmark]
        cases hgo : r.github_url with
        | none => rw [hgo] at hg; cases hg
        | some v => rfl
      · right
        rw [← hfmt]
        simp only [formatBookmark]
        exact dedupKeepFirst_ne_nil _ fun hnil => by
          rw [hnil] at hl; exact absurd hl (by simp)
  · intro r _ hg hl
    unfold keepBookmark
    rw [hg, hl]
    rfl
  · unfold processOutput
    simp only [if_true]
    exact List.take_left _ _
  · intro b hb
    unfold processOutput at hb
    simp only [if_true] at hb
    rw [List.drop_left] at hb
    exact (List.mem_filter.mp hb).1

/-- Concrete instantiation of `output_written_invariants`: a formatted
bookmark with one duplicated link comes out with duplicate-free, nonempty
`all_links`. -/
theorem output_written_invariants_witness :
    (Entry.mk none "t".data none ["a".data] "now".data).all_links.Nodup ∧
    ((Entry.mk none "t".data none ["a".data] "now".data).github_url.isSome = true ∨
      (Entry.mk none "t".data none ["a".data] "now".data).all_links ≠ []) :=
  (output_written_invariants
      [RawBookmark.mk "t".data none none none ["a".data, "a".data] "now".data]
      []).1
    (Entry.mk none "t".data none ["a".data] "now".data) (by decide)

theorem collect_fold_eq :
    ∀ (hrefs acc : List (List Char)),
      hrefs.foldl (fun s h => if keepTweetHref h then setAdd s h else s) acc =
      hrefs.foldl
        (fun arr h =>
          if keepTweetHref h && !decide (h ∈ arr) then arr ++ [h] else arr) acc := by
  intro hrefs
  induction hrefs with
  | nil => intro acc; rfl
  | cons h t ih =>
    intro acc
    rw [List.foldl_cons, List.foldl_cons, ← ih]
    congr 1
    by_cases hk : keepTweetHref h = true
    · by_cases hm : h ∈ acc
      · simp [setAdd, hk, hm]
      · simp [setAdd, hk, hm]
    · simp [hk]

theorem collect_fold_nodup :
    ∀ (hrefs acc : List (List Char)), acc.Nodup →
      (hrefs.foldl (fun s h => if keepTweetHref h then setAdd s h else s) acc).Nodup := by
  intro hrefs
  induction hrefs with
  | nil => intro acc h; exact h
  | cons h t ih =>
    intro acc hacc
    rw [List.foldl_cons]
    apply ih
    by_cases hk : keepTweetHref h = true
    · rw [if_pos hk]
      unfold setAdd
      split
      · exact hacc
      · rename_i hna
        simp [List.nodup_append, hacc, hna]
    · rw [if_neg hk]
      exact hacc

/-- C8: the optimised Set-based visible-tweet-link collector and the legacy
array-with-includes version compute the same list — same elements in the
same order — and that list is duplicate-free, for every sequence of anchor
hrefs on the page. -/
theorem visible_link_collectors_equiv (hrefs : List (List Char)) :
    collectVisibleLinksSet hrefs = collectVisibleLinksLegacy hrefs ∧
    (collectVisibleLinksSet hrefs).Nodup := by
  refine ⟨?_, collect_fold_nodup hrefs [] (by simp)⟩
  unfold collectVisibleLinksSet collectVisibleLinksLegacy
  exact collect_fold_eq hrefs []

/-- Concrete instantiation of `visible_link_collectors_equiv` on a page with
a duplicated tweet link, an analytics link and an external link. -/
theorem visible_link_collectors_equiv_witness :
    collectVisibleLinksSet
        ["https://x.com/u/status/1".data, "https://x.com/u/status/1".data,
         "https://x.com/u/status/1/analytics".data, "https://e.com/p".data] =
      collectVisibleLinksLegacy
        ["https://x.com/u/status/1".data, "https://x.com/u/status/1".data,
         "https://x.com/u/status/1/analytics".data, "https://e.com/p".data] ∧
    (collectVisibleLinksSet
        ["https://x.com/u/status/1".data, "https://x.com/u/status/1".data,
         "https://x.com/u/status/1/analytics".data, "https://e.com/p".data]).Nodup :=
  visible_link_collectors_equiv _

theorem loopIter_processed (cfg : LoopCfg) (vis : Nat → List (List Char))
    (st : LoopState) :
    (loopIter cfg vis st).processed =
      (processVisible cfg st.processed st.processed st.count (vis st.scrolls)).1 :=
  rfl

theorem loopIter_count (cfg : LoopCfg) (vis : Nat → List (List Char))
    (st : LoopState) :
    (loopIter cfg vis st).count =
      (processVisible cfg st.processed st.processed st.count (vis st.scrolls)).2.1 :=
  rfl

theorem loopIter_scrolls (cfg : LoopCfg) (vis : Nat → List (List Char))
    (st : LoopState) :
    (loopIter cfg vis st).scrolls =
      if cfg.limit = 0 ∨
          (processVisible cfg st.processed st.processed st.count (vis st.scrolls)).2.1 <
            cfg.limit
        then st.scrolls + 1 else st.scrolls :=
  rfl

theorem runLoop_stable (cfg : LoopCfg) (vis : Nat → List (List Char)) :
    ∀ (fuel : Nat) (st : LoopState), loopCond cfg st = false →
      runLoop cfg vis fuel st = st := by
  intro fuel st h
  cases fuel with
  | zero => rfl
  | succ f => unfold runLoop; rw [h]; simp

theorem loopCond_parts (cfg : LoopCfg) (st : LoopState) (h : loopCond cfg st = true) :
    st.reachedEnd = false ∧ (cfg.limit = 0 ∨ st.count < cfg.limit) ∧
    st.scrolls < cfg.maxScrolls ∧
    st.emptyScrolls < MAX_CONSECUTIVE_EMPTY_SCROLLS := by
  unfold loopCond at h
  simp only [Bool.and_eq_true, Bool.or_eq_true, decide_eq_true_eq,
    Bool.not_eq_true'] at h
  exact ⟨h.1.1.1, h.1.1.2, h.1.2, h.2⟩

theorem runLoop_exits (cfg : LoopCfg) (vis : Nat → List (List Char)) :
    ∀ (fuel : Nat) (st : LoopState),
      2 * (cfg.maxScrolls - st.scrolls) + 2 ≤ fuel →
      loopCond cfg (runLoop cfg vis fuel st) = false := by
  intro fuel
  induction fuel with
  | zero => intro st h; omega
  | succ f ih =>
    intro st h
    unfold runLoop
    by_cases hc : loopCond cfg st = true
    · rw [if_pos hc]
      have hsc : st.scrolls < cfg.maxScrolls := (loopCond_parts cfg st hc).2.2.1
      by_cases hscr : cfg.limit = 0 ∨
          (processVisible cfg st.processed st.processed st.count (vis st.scrolls)).2.1 <
            cfg.limit
      · apply ih
        rw [loopIter_scrolls, if_pos hscr]
        omega
      · have hcnt : loopCond cfg (loopIter cfg vis st) = false := by
          unfold loopCond
        -- limit positive and reached: second conjunct of the guard is false
          have h0 : ¬ cfg.limit = 0 := fun h0 => hscr (Or.inl h0)
          have h1 : ¬ (loopIter cfg vis st).count < cfg.limit := by
            rw [loopIter_count]
            intro hlt
            exact hscr (Or.inr hlt)
          simp [h0, h1]
        rw [runLoop_stable cfg vis f _ hcnt]
        exact hcnt
    · rw [if_neg hc]
      exact Bool.eq_false_iff.mpr hc

/-- C6: the `scrapeBookmarks` collection loop always terminates — within
`2*maxScrolls + 2` guard checks the guard is false — and it stops exactly
when the bookmark limit has been reached (when `limit > 0`), `maxScrolls`
scrolls have been performed, or `MAX_CONSECUTIVE_EMPTY_SCROLLS = 15`
consecutive scrolls processed no new bookmark, whichever happens first (the
guard is re-checked before every iteration, and `reachedEnd` is only ever
set when the empty-scroll counter has reached the maximum). -/
theorem scrapeBookmarks_loop_terminates (cfg : LoopCfg)
    (vis : Nat → List (List Char)) (fuel : Nat) (st : LoopState)
    (hfuel : 2 * cfg.maxScrolls + 2 ≤ fuel)
    (hre : st.reachedEnd = true →
      MAX_CONSECUTIVE_EMPTY_SCROLLS ≤ st.emptyScrolls) :
    loopCond cfg (runLoop cfg vis fuel st) = false ∧
    (loopCond cfg st = false → runLoop cfg vis fuel st = st) ∧
    (loopCond cfg st = false ↔
      (0 < cfg.limit ∧ cfg.limit ≤ st.count) ∨ cfg.maxScrolls ≤ st.scrolls ∨
      MAX_CONSECUTIVE_EMPTY_SCROLLS ≤ st.emptyScrolls) := by
  refine ⟨runLoop_exits cfg vis fuel st (by omega),
    runLoop_stable cfg vis fuel st, ?_⟩
  unfold loopCond
  cases hres : st.reachedEnd with
  | true =>
    simp only [hres, Bool.not_true, Bool.false_and, Bool.and_eq_true]
    constructor
    · intro _; exact Or.inr (Or.inr (hre hres))
    · intro _; trivial
  | false =>
    simp only [hres, Bool.not_false, Bool.true_and]
    rw [Bool.eq_false_iff]
    simp only [ne_eq, Bool.and_eq_true, Bool.or_eq_true, decide_eq_true_eq]
    omega

/-- Concrete instantiation of `scrapeBookmarks_loop_terminates`: with limit 1
and 3 maximum scrolls, the loop guard is false after running the loop on an
empty bookmarks page. -/
theorem scrapeBookmarks_loop_terminates_witness :
    loopCond ⟨1, 3⟩
      (runLoop ⟨1, 3⟩ (fun _ => []) 8 initLoopState) = false :=
  (scrapeBookmarks_loop_terminates ⟨1, 3⟩ (fun _ => []) 8 initLoopState
    (by decide) (by decide)).1

theorem processVisible_inv (cfg : LoopCfg) (snap : List (List Char)) :
    ∀ (urls l : List (List Char)) (c : Nat) (a : Bool),
      urls.Nodup → l.Nodup → c = l.length → (0 < cfg.limit → c ≤ cfg.limit) →
      (∀ v ∈ l, v ∉ snap → v ∉ urls) →
      (urls.foldl (stepTweet cfg snap) (l, c, a)).1.Nodup ∧
      (urls.foldl (stepTweet cfg snap) (l, c, a)).2.1 =
        (urls.foldl (stepTweet cfg snap) (l, c, a)).1.length ∧
      (0 < cfg.limit →
        (urls.foldl (stepTweet cfg snap) (l, c, a)).2.1 ≤ cfg.limit) := by
  intro urls
  induction urls with
  | nil =>
    intro l c a _ hl hc hlim _
    exact ⟨hl, by simpa using hc, hlim⟩
  | cons u urls ih =>
    intro l c a hnd hl hc hlim hH
    rw [List.foldl_cons]
    unfold stepTweet
    by_cases hskip : u ∈ snap ∨ (0 < cfg.limit ∧ cfg.limit ≤ c)
    · rw [if_pos hskip]
      exact ih l c a (List.nodup_cons.mp hnd).2 hl hc hlim
        (fun v hv hvs hvt => hH v hv hvs (List.mem_cons_of_mem u hvt))
    · rw [if_neg hskip]
      push_neg at hskip
      obtain ⟨husnap, hlt⟩ := hskip
      have hul : u ∉ l := fun hul => hH u hul husnap (by simp)
      have r1 : (l ++ [u]).Nodup := by simp [List.nodup_append, hl, hul]
      have r2 : c + 1 = (l ++ [u]).length := by simp [hc]
      have r3 : 0 < cfg.limit → c + 1 ≤ cfg.limit := by
        intro hpos
        have := hlt hpos
        omega
      have r4 : ∀ v ∈ l ++ [u], v ∉ snap → v ∉ urls := by
        intro v hv hvs
        rcases List.mem_append.mp hv with hvl | hvu
        · intro hvt
          exact hH v hvl hvs (List.mem_cons_of_mem u hvt)
        · have hvu' : v = u := by simpa using hvu
          subst hvu'
          exact (List.nodup_cons.mp hnd).1
      exact ih (l ++ [u]) (c + 1) true (List.nodup_cons.mp hnd).2 r1 r2 r3 r4

theorem loopIter_inv (cfg : LoopCfg) (vis : Nat → List (List Char))
    (hvis : ∀ n, (vis n).Nodup) (st : LoopState)
    (h1 : st.processed.Nodup) (h2 : st.count = st.processed.length)
    (h3 : 0 < cfg.limit → st.count ≤ cfg.limit) :
    (loopIter cfg vis st).processed.Nodup ∧
    (loopIter cfg vis st).count = (loopIter cfg vis st).processed.length ∧
    (0 < cfg.limit → (loopIter cfg vis st).count ≤ cfg.limit) := by
  have hp := processVisible_inv cfg st.processed (vis st.scrolls)
    st.processed st.count false (hvis _) h1 h2 h3
    (fun v hv hvs => absurd hv hvs)
  rw [loopIter_processed, loopIter_count]
  exact hp

theorem runLoop_inv (cfg : LoopCfg) (vis : Nat → List (List Char))
    (hvis : ∀ n, (vis n).Nodup) :
    ∀ (fuel : Nat) (st : LoopState),
      st.processed.Nodup → st.count = st.processed.length →
      (0 < cfg.limit → st.count ≤ cfg.limit) →
      (runLoop cfg vis fuel st).processed.Nodup ∧
      (runLoop cfg vis fuel st).count =
        (runLoop cfg vis fuel st).processed.length ∧
      (0 < cfg.limit → (runLoop cfg vis fuel st).count ≤ cfg.limit) := by
  intro fuel
  induction fuel with
  | zero => intro st h1 h2 h3; exact ⟨h1, h2, h3⟩
  | succ f ih =>
    intro st h1 h2 h3
    unfold runLoop
    by_cases hc : loopCond cfg st = true
    · rw [if_pos hc]
      obtain ⟨g1, g2, g3⟩ := loopIter_inv cfg vis hvis st h1 h2 h3
      exact ih _ g1 g2 g3
    · rw [if_neg hc]
      exact ⟨h1, h2, h3⟩

/-- C9: with a positive limit, a normally returning run of `scrapeBookmarks`
yields at most `limit` bookmarks; each processed tweet URL contributes
exactly one bookmark (the collection is duplicate-free and its length equals
`processedCount`), since a URL already in the collection is skipped.  The
visible-link lists are duplicate-free, as they come from the Set-based
collector (`visible_link_collectors_equiv` is the statement of that fact for
the collector itself). -/
theorem scrapeBookmarks_limit_nodup (cfg : LoopCfg)
    (vis : Nat → List (List Char)) (fuel : Nat)
    (hvis : ∀ n, (vis n).Nodup) (hlim : 0 < cfg.limit) :
    (runLoop cfg vis fuel initLoopState).count ≤ cfg.limit ∧
    (runLoop cfg vis fuel initLoopState).processed.Nodup ∧
    (runLoop cfg vis fuel initLoopState).count =
      (runLoop cfg vis fuel initLoopState).processed.length := by
  obtain ⟨h1, h2, h3⟩ := runLoop_inv cfg vis hvis fuel initLoopState
    (by simp [initLoopState]) (by simp [initLoopState]) (fun _ => by simp [initLoopState])
  exact ⟨h3 hlim, h1, h2⟩

/-- Concrete instantiation of `scrapeBookmarks_limit_nodup`: with limit 2 and
three distinct visible bookmarks, at most 2 are collected, without
duplicates. -/
theorem scrapeBookmarks_limit_nodup_witness :
    (runLoop ⟨2, 5⟩ (fun _ => ["a".data, "b".data, "c".data]) 12
        initLoopState).count ≤ 2 ∧
    (runLoop ⟨2, 5⟩ (fun _ => ["a".data, "b".data, "c".data]) 12
        initLoopState).processed.Nodup ∧
    (runLoop ⟨2, 5⟩ (fun _ => ["a".data, "b".data, "c".data]) 12
        initLoopState).count =
      (runLoop ⟨2, 5⟩ (fun _ => ["a".data, "b".data, "c".data]) 12
        initLoopState).processed.length :=
  by
  have hv : (["a".data, "b".data, "c".data] : List (List Char)).Nodup := by decide
  exact scrapeBookmarks_limit_nodup ⟨2, 5⟩
    (fun _ => ["a".data, "b".data, "c".data]) 12 (fun _ => hv) (by decide)

theorem find?_firstSat {α : Type} (p : α → Bool) :
    ∀ (l : List α) (a : α), l.find? p = some a → firstSat p l a := by
  intro l
  induction l with
  | nil => intro a h; simp [List.find?] at h
  | cons b l ih =>
    intro a h
    cases hp : p b with
    | true =>
      rw [List.find?_cons_of_pos _ hp] at h
      simp only [Option.some.injEq] at h
      subst h
      exact ⟨[], l, rfl, hp, by simp⟩
    | false =>
      rw [List.find?_cons_of_neg _ (by simp [hp])] at h
      obtain ⟨pre, post, hl, hpa, hpre⟩ := ih a h
      refine ⟨b :: pre, post, by simp [hl], hpa, ?_⟩
      intro x hx
      rcases List.mem_cons.mp hx with rfl | hx'
      · exact hp
      · exact hpre x hx'

/-- C7: `authenticateTwitter` runs username entry, then password entry, then
login verification, in that fixed order, each step taking the first matching
candidate selector; it succeeds exactly when all three steps succeed; any
step failure closes the launched browser and throws an error whose message
starts with `Failed to authenticate with Twitter: ` (the message identifying
the first failing step); and on success the browser object is returned with
the browser left open. -/
theorem authenticateTwitter_spec (env : AuthEnv) :
    (authenticateTwitter env).ok =
      (enterUsername env && enterPassword env && verifyLoginSuccess env) ∧
    ((authenticateTwitter env).ok = false →
      (authenticateTwitter env).browserClosed = true ∧
      ∃ m, (authenticateTwitter env).errMsg = some m ∧ strLeads authFailPre m) ∧
    ((authenticateTwitter env).ok = true →
      (authenticateTwitter env).browserClosed = false ∧
      (authenticateTwitter env).errMsg = none) ∧
    (enterUsername env = false →
      (authenticateTwitter env).errMsg = some (authFailPre ++ userStepFailM)) ∧
    (enterUsername env = true → enterPassword env = false →
      (authenticateTwitter env).errMsg = some (authFailPre ++ passStepFailM)) ∧
    (enterUsername env = true → enterPassword env = true →
      verifyLoginSuccess env = false →
      (authenticateTwitter env).errMsg = some (authFailPre ++ verifyStepFailM)) ∧
    (∀ s, usernameSelectors.find? env.present = some s →
      firstSat env.present usernameSelectors s) ∧
    (∀ s, passwordSelectors.find? env.present = some s →
      firstSat env.present passwordSelectors s) ∧
    (∀ s, (nextButtonSelectors.find? fun t => env.present t && env.clickOk t) =
        some s →
      firstSat (fun t => env.present t && env.clickOk t) nextButtonSelectors s) ∧
    (∀ s, (loginButtonSelectors.find? fun t => env.present t && env.clickOk t) =
        some s →
      firstSat (fun t => env.present t && env.clickOk t) loginButtonSelectors s) := by
  refine ⟨?_, ?_, ?_, ?_, ?_, ?_,
    fun s => find?_firstSat env.present usernameSelectors s,
    fun s => find?_firstSat env.present passwordSelectors s,
    fun s => find?_firstSat _ nextButtonSelectors s,
    fun s => find?_firstSat _ loginButtonSelectors s⟩
  · cases hu : enterUsername env <;> cases hp : enterPassword env <;>
      cases hv : verifyLoginSuccess env <;>
      simp [authenticateTwitter, hu, hp, hv]
  · intro hok
    by_cases hu : enterUsername env = false
    · exact ⟨by simp [authenticateTwitter, hu],
        authFailPre ++ userStepFailM, by simp [authenticateTwitter, hu],
        userStepFailM, rfl⟩
    · by_cases hp : enterPassword env = false
      · exact ⟨by simp [authenticateTwitter, hu, hp],
          authFailPre ++ passStepFailM, by simp [authenticateTwitter, hu, hp],
          passStepFailM, rfl⟩
      · by_cases hv : verifyLoginSuccess env = false
        · exact ⟨by simp [authenticateTwitter, hu, hp, hv],
            authFailPre ++ verifyStepFailM,
            by simp [authenticateTwitter, hu, hp, hv], verifyStepFailM, rfl⟩
        · exfalso
          simp [authenticateTwitter, hu, hp, hv] at hok
  · intro hok
    cases hu : enterUsername env <;> cases hp : enterPassword env <;>
      cases hv : verifyLoginSuccess env <;>
      simp [authenticateTwitter, hu, hp, hv] at hok ⊢
  · intro hu
    simp [authenticateTwitter, hu]
  · intro hu hp
    simp [authenticateTwitter, hu, hp]
  · intro hu hp hv
    simp [authenticateTwitter, hu, hp, hv]

/-- Concrete instantiation of `authenticateTwitter_spec`: on a page where the
username field never appears, authentication fails, the browser is closed,
and the error message carries the authentication prefix. -/
theorem authenticateTwitter_spec_witness :
    (authenticateTwitter (AuthEnv.mk (fun _ => false) (fun _ => false)
        (some "user") (some "pw") "https://twitter.com/login")).browserClosed = true ∧
    ∃ m, (authenticateTwitter (AuthEnv.mk (fun _ => false) (fun _ => false)
        (some "user") (some "pw") "https://twitter.com/login")).errMsg = some m ∧
      strLeads authFailPre m :=
  (authenticateTwitter_spec (AuthEnv.mk (fun _ => false) (fun _ => false)
      (some "user") (some "pw") "https://twitter.com/login")).2.1 (by decide)
